import Mathlib

/-
Verification development for the openchem repository.

The repository's observable artifact is a set of Python harness scripts
(src/scripts/) that drive a tautomer enumeration / canonicalization engine
and an IUPAC-name fetching pipeline.  The engine itself (the library calls
Enumerate / Canonicalize behind enumerate_tautomers_rdkit) is not part of
the repository's sources, so it is modelled here from the design document:
molecules are identified with their canonical keys (natural numbers), the
transform rule set is abstracted into a successor function giving, for each
molecule, the ordered list of tautomers producible from it by one rewrite,
and the scorer is abstracted into a numeric stability score with the
canonical key as the final deterministic tie-break.  The harness functions
(enumerate_tautomers_rdkit in compare-tautomers-rdkit.py and
high-complexity-tautomers.py, fetch_iupac_batch and main in fetch_iupac.py)
are embedded directly from the Python sources.
-/

namespace Engine

/-- Modelled from the spec: the Scorer's strict preference order between two
candidate tautomers (spec section 4.4).  The engine code is not in the
repository; per the spec, a candidate is strictly preferred when its numeric
stability score is higher, with the canonical key (here the molecule's
numeric identity) as the final deterministic tie-break, so that no two
distinct candidates ever tie completely. -/
def Better (score : Nat → Nat) (a b : Nat) : Prop :=
  score b < score a ∨ (score a = score b ∧ a < b)

instance (score : Nat → Nat) (a b : Nat) : Decidable (Better score a b) := by
  unfold Better
  exact inferInstance

/-- Modelled from the spec: selection of the maximum-scoring candidate from a
scored candidate list (spec section 4.5), folding the strict preference
order over the list with a running best candidate. -/
def pickMaxAux (score : Nat → Nat) : Nat → List Nat → Nat
  | acc, [] => acc
  | acc, x :: l => pickMaxAux score (if Better score x acc then x else acc) l

/-- Modelled from the spec: insertion of a newly produced candidate into the
discovered set (spec section 4.3): the candidate is inserted only if its
canonical key is new, and never once the discovered-set cardinality has
reached the caller-supplied bound maxCount. -/
def insertNew (N : Nat) (acc : List Nat) (n : Nat) : List Nat :=
  if N ≤ acc.length then acc
  else if n ∈ acc then acc
  else acc ++ [n]

/-- Modelled from the spec: one frontier-expansion pass of the bounded
breadth-first closure (spec section 4.3): for every molecule currently in
the discovered set, every candidate produced by one rule application is
inserted if new, preserving first-discovery insertion order. -/
def expandOnce (nb : Nat → List Nat) (N : Nat) (acc : List Nat) : List Nat :=
  acc.foldl (fun cur m => (nb m).foldl (insertNew N) cur) acc

/-- Modelled from the spec: iteration of frontier expansion until a full pass
produces no new key (fixed point) or the bound stops further insertion.
Fuel bounds the number of passes; N passes always suffice because every
non-final pass strictly grows the discovered set, which is capped at N. -/
def enumAux (nb : Nat → List Nat) (N : Nat) : Nat → List Nat → List Nat
  | 0, acc => acc
  | fuel + 1, acc =>
    if expandOnce nb N acc = acc then acc
    else enumAux nb N fuel (expandOnce nb N acc)

/-- Modelled from the spec: the Enumerator (spec section 4.3),
enumerate(seed, maxCount): bounded breadth-first closure over the rewrite
relation starting from the singleton seed set, output in first-discovery
order. -/
def enumerate (nb : Nat → List Nat) (seed N : Nat) : List Nat :=
  enumAux nb N N [seed]

/-- Modelled from the spec: the Canonicalizer's winner (spec section 4.5):
run the Enumerator and select the maximum-scoring candidate under the total
preference order. -/
def canonWinner (nb : Nat → List Nat) (score : Nat → Nat) (seed N : Nat) : Nat :=
  pickMaxAux score seed (enumerate nb seed N)

/-- Reachability under the rewrite relation: molecule y is obtainable from x
by zero or more single-rule rewrites. -/
abbrev Reaches (nb : Nat → List Nat) : Nat → Nat → Prop :=
  Relation.ReflTransGen (fun a b => b ∈ nb a)

/-- A discovered set is closed when no rule application on any of its
members produces a molecule outside it; a closed set containing the seed is
the untruncated fixed point of enumeration. -/
def closedUnder (nb : Nat → List Nat) (l : List Nat) : Prop :=
  ∀ m ∈ l, ∀ n ∈ nb m, n ∈ l

instance (nb : Nat → List Nat) (l : List Nat) : Decidable (closedUnder nb l) := by
  unfold closedUnder
  exact inferInstance

end Engine

namespace CompareTautomers

/-- Result dictionary of enumerate_tautomers_rdkit in
src/scripts/compare-tautomers-rdkit.py (success case, lines 33-38): the
input SMILES, the number of enumerated tautomers, the full tautomer list
(as canonical keys) and the canonical tautomer. -/
structure TautResult where
  input : String
  count : Nat
  tautomers : List Nat
  canonical : Nat

/-- Shallow embedding of enumerate_tautomers_rdkit from
src/scripts/compare-tautomers-rdkit.py (lines 12-38).  SMILES parsing is an
external collaborator and is passed in as a function returning the parsed
molecule's canonical key, or none on failure; nb and score stand for the
engine's rule set and scorer.  On parse failure the function returns only
the error message (line 16); otherwise it returns the enumerated tautomer
list, its count and the canonical tautomer. -/
def enumerate_tautomers_rdkit (parse : String → Option Nat) (nb : Nat → List Nat)
    (score : Nat → Nat) (smiles : String) (maxTautomers : Nat) :
    Except String TautResult :=
  match parse smiles with
  | none => Except.error ("Failed to parse SMILES: " ++ smiles)
  | some mol =>
    Except.ok
      ⟨smiles, (Engine.enumerate nb mol maxTautomers).length,
        Engine.enumerate nb mol maxTautomers,
        Engine.canonWinner nb score mol maxTautomers⟩

/-- Embedding of the Python default argument max_tautomers=32 of
enumerate_tautomers_rdkit in src/scripts/compare-tautomers-rdkit.py line 12
(the same default appears in src/scripts/extended-tautomer-tests.py line
12): calling without the bound uses 32. -/
def enumerate_tautomers_rdkit_default (parse : String → Option Nat)
    (nb : Nat → List Nat) (score : Nat → Nat) (smiles : String) :
    Except String TautResult :=
  enumerate_tautomers_rdkit parse nb score smiles 32

end CompareTautomers

namespace HighComplexity

/-- Result dictionary of enumerate_tautomers_rdkit in
src/scripts/high-complexity-tautomers.py (success case, lines 32-38): count
is the full number of enumerated tautomers, tautomers holds only the first
20 of them, and truncated records whether the displayed list was cut. -/
structure HCResult where
  input : String
  count : Nat
  tautomers : List Nat
  canonical : Nat
  truncated : Bool

/-- Shallow embedding of enumerate_tautomers_rdkit from
src/scripts/high-complexity-tautomers.py (lines 11-38).  Identical to the
compare-tautomers harness except that the returned tautomers list is cut to
the first 20 entries (results[:20], line 35) and the returned truncated
flag is the comparison len(results) > 20 (line 37). -/
def enumerate_tautomers_rdkit (parse : String → Option Nat) (nb : Nat → List Nat)
    (score : Nat → Nat) (smiles : String) (maxTautomers : Nat) :
    Except String HCResult :=
  match parse smiles with
  | none => Except.error ("Failed to parse SMILES: " ++ smiles)
  | some mol =>
    Except.ok
      ⟨smiles, (Engine.enumerate nb mol maxTautomers).length,
        (Engine.enumerate nb mol maxTautomers).take 20,
        Engine.canonWinner nb score mol maxTautomers,
        decide (20 < (Engine.enumerate nb mol maxTautomers).length)⟩

/-- Embedding of the Python default argument max_tautomers=100 of
enumerate_tautomers_rdkit in src/scripts/high-complexity-tautomers.py line
11 (the main loop also passes 100 explicitly, line 103). -/
def enumerate_tautomers_rdkit_default (parse : String → Option Nat)
    (nb : Nat → List Nat) (score : Nat → Nat) (smiles : String) :
    Except String HCResult :=
  enumerate_tautomers_rdkit parse nb score smiles 100

end HighComplexity

namespace FetchIupac

/-- One result entry of fetch_iupac_batch in src/scripts/fetch_iupac.py
(lines 24 and 27): the input SMILES and the fetched IUPAC name (possibly
empty). -/
structure IUPACEntry where
  smiles : String
  iupacName : String
  deriving DecidableEq

/-- Outcome of one pcp.get_compounds lookup as observed by
fetch_iupac_batch: the call raised an exception, returned no compound, or
returned a first compound whose iupac_name attribute is the given optional
string. -/
inductive LookupOutcome where
  | raised : LookupOutcome
  | noCompound : LookupOutcome
  | found : Option String → LookupOutcome

/-- Entry built by one iteration of the loop in fetch_iupac_batch
(src/scripts/fetch_iupac.py lines 17-28): on an exception or an empty
compound list the IUPAC name is the empty string; otherwise it is the first
compound's iupac_name, with None replaced by the empty string
(compounds[0].iupac_name or '', line 21). -/
def entryFor (lookup : String → LookupOutcome) (s : String) : IUPACEntry :=
  match lookup s with
  | LookupOutcome.raised => ⟨s, ""⟩
  | LookupOutcome.noCompound => ⟨s, ""⟩
  | LookupOutcome.found i => ⟨s, i.getD ""⟩

/-- Shallow embedding of fetch_iupac_batch from src/scripts/fetch_iupac.py
(lines 12-29): one entry per input SMILES, in input order; exceptions are
caught inside the loop, so the function is total.  The per-request
rate-limit sleep has no observable effect on the returned data and is not
modelled. -/
def fetch_iupac_batch (lookup : String → LookupOutcome) (batch : List String) :
    List IUPACEntry :=
  batch.map (entryFor lookup)

/-- File-system state touched by main in src/scripts/fetch_iupac.py: the
per-batch output files batch_1.json, batch_2.json, ... (indexed by batch
number) and the merged all_results.json.  Each file either holds a parsed
entry list or does not exist. -/
structure FS where
  batchFile : Nat → Option (List IUPACEntry)
  allResults : Option (List IUPACEntry)

/-- Writing one batch file (json.dump at src/scripts/fetch_iupac.py line
62). -/
def FS.setBatch (fs : FS) (n : Nat) (data : List IUPACEntry) : FS :=
  ⟨fun j => if j = n then some data else fs.batchFile j, fs.allResults⟩

/-- Writing all_results.json (src/scripts/fetch_iupac.py line 79). -/
def FS.setAll (fs : FS) (data : List IUPACEntry) : FS :=
  ⟨fs.batchFile, some data⟩

/-- Python BATCH_SIZE = 15 (src/scripts/fetch_iupac.py line 8). -/
def BATCH_SIZE : Nat := 15

/-- The k-th batch (0-based) of the SMILES list: smiles[i:i+BATCH_SIZE] for
i = k * BATCH_SIZE (src/scripts/fetch_iupac.py line 50). -/
def batchOf (smiles : List String) (k : Nat) : List String :=
  (smiles.drop (k * BATCH_SIZE)).take BATCH_SIZE

/-- Number of batch iterations: both the write loop (range with step
BATCH_SIZE, line 49) and the merge loop bound (len(smiles) + BATCH_SIZE - 1)
// BATCH_SIZE (line 70) equal this ceiling division. -/
def numBatches (smiles : List String) : Nat :=
  (smiles.length + BATCH_SIZE - 1) / BATCH_SIZE

/-- Stripping of input lines: each line is stripped and kept only if
nonempty (src/scripts/fetch_iupac.py lines 36-39).  Lines are modelled as
already stripped, so only the nonemptiness filter remains. -/
def stripLines (lines : List String) : List String :=
  lines.filter (fun l => l ≠ "")

/-- The batch-writing loop of main (src/scripts/fetch_iupac.py lines
49-64): for each batch, the results are fetched, then, if the batch file
already exists, the iteration is skipped (the fetched results are
discarded); otherwise the fetched results are written to the batch file. -/
def writeBatches (lookup : String → LookupOutcome) (smiles : List String)
    (fs0 : FS) : FS :=
  (List.range (numBatches smiles)).foldl
    (fun fs k =>
      if (fs.batchFile (k + 1)).isSome then fs
      else FS.setBatch fs (k + 1) (fetch_iupac_batch lookup (batchOf smiles k)))
    fs0

/-- The merge loop of main (src/scripts/fetch_iupac.py lines 68-76): the
contents of every existing batch file with number 1..num_batches are
concatenated in order; missing batch files are skipped. -/
def mergeBatches (fs : FS) (n : Nat) : List IUPACEntry :=
  (List.range n).foldl
    (fun acc k =>
      match fs.batchFile (k + 1) with
      | some data => acc ++ data
      | none => acc)
    []

/-- Shallow embedding of main from src/scripts/fetch_iupac.py (lines
31-81): if the SMILES file is missing, main returns after printing an error
(no file-system change); otherwise the stripped nonempty lines are limited
to the first 300, the batch loop runs, and the merged results are written
to all_results.json. -/
def main (lookup : String → LookupOutcome) (smilesFile : Option (List String))
    (fs0 : FS) : FS :=
  match smilesFile with
  | none => fs0
  | some lines =>
    FS.setAll (writeBatches lookup ((stripLines lines).take 300) fs0)
      (mergeBatches (writeBatches lookup ((stripLines lines).take 300) fs0)
        (numBatches ((stripLines lines).take 300)))

end FetchIupac

section ConcreteInstances

/-- Canonical-key string used as a stand-in SMILES input in concrete
instances. -/
def sChain : String := "chain"

/-- Concrete SMILES string used in fetch_iupac instances. -/
def sGood : String := "CC"

/-- Concrete SMILES string whose lookup raises, used in fetch_iupac
instances. -/
def sBad : String := "XX"

/-- Concrete IUPAC name used in fetch_iupac instances. -/
def sIup : String := "ethane"

/-- Scorer instance: the score of a molecule is its canonical key. -/
def scoreId : Nat → Nat := fun n => n

/-- Parser instance mapping every SMILES string to molecule 0. -/
def parseW : String → Option Nat := fun _ => some 0

/-- Parser instance mapping every SMILES string to molecule 7. -/
def parseW7 : String → Option Nat := fun _ => some 7

/-- Parser instance rejecting every SMILES string. -/
def parseNone : String → Option Nat := fun _ => none

/-- Rule-set instance: a symmetric 21-molecule chain 0 - 1 - ... - 20, a
molecule with 21 tautomers in total. -/
def nbChain : Nat → List Nat :=
  fun n =>
    if n = 0 then [1]
    else if n < 20 then [n - 1, n + 1]
    else if n = 20 then [19]
    else []

/-- Rule-set instance with four molecules and symmetric rewrite edges
0 - 1, 0 - 2, 1 - 3. -/
def nbC : Nat → List Nat :=
  fun n =>
    if n = 0 then [1, 2]
    else if n = 1 then [3, 0]
    else if n = 2 then [0]
    else if n = 3 then [1]
    else []

/-- Scorer instance for nbC: molecule 3 scores 9, molecule 1 scores 5,
molecule 2 scores 1, all others 0. -/
def scoreC : Nat → Nat :=
  fun n =>
    if n = 3 then 9
    else if n = 1 then 5
    else if n = 2 then 1
    else 0

/-- Rule-set instance: two molecules 0 and 1 interconverting. -/
def nbPair : Nat → List Nat :=
  fun n => if n = 0 then [1] else if n = 1 then [0] else []

/-- Rule-set instance with no applicable rule anywhere. -/
def nbEmpty : Nat → List Nat := fun _ => []

/-- The result record the high-complexity harness produces for the chain
instance at bound 100. -/
def rChain : HighComplexity.HCResult :=
  ⟨sChain, (Engine.enumerate nbChain 0 100).length,
    (Engine.enumerate nbChain 0 100).take 20,
    Engine.canonWinner nbChain scoreId 0 100,
    decide (20 < (Engine.enumerate nbChain 0 100).length)⟩

/-- The result record the compare-tautomers harness produces for the chain
instance at bound 100. -/
def rCmp : CompareTautomers.TautResult :=
  ⟨sChain, (Engine.enumerate nbChain 0 100).length,
    Engine.enumerate nbChain 0 100,
    Engine.canonWinner nbChain scoreId 0 100⟩

/-- A concrete batch-file entry used in fetch_iupac instances. -/
def entryW : FetchIupac.IUPACEntry := ⟨sGood, sIup⟩

/-- Lookup instance: the lookup of sBad raises, every other lookup finds a
compound named sIup. -/
def lookupW : String → FetchIupac.LookupOutcome :=
  fun s =>
    if s = sBad then FetchIupac.LookupOutcome.raised
    else FetchIupac.LookupOutcome.found (some sIup)

/-- SMILES input lines used in fetch_iupac instances: one batch of two. -/
def linesW : List String := [sGood, sBad]

/-- Initial file-system instance in which batch_1.json already exists with
content [entryW]. -/
def fsW : FetchIupac.FS :=
  ⟨fun j => if j = 1 then some [entryW] else none, none⟩

end ConcreteInstances

set_option maxRecDepth 16000

namespace Engine

/-- A predicate preserved by every step of a left fold holds of the fold's
result. -/
theorem foldl_invariant {α : Type} {β : Type} (P : β → Prop) (f : β → α → β) :
    ∀ (l : List α) (c : β), P c → (∀ d a, P d → a ∈ l → P (f d a)) →
      P (l.foldl f c) := by
  intro l
  induction l with
  | nil =>
    intro c hc _
    exact hc
  | cons x xs ih =>
    intro c hc hstep
    exact ih (f c x) (hstep c x hc (List.mem_cons_self x xs))
      (fun d a hd ha => hstep d a hd (List.mem_cons_of_mem x ha))

/-- A list that extends another while not exceeding its length equals it. -/
theorem prefix_eq_of_le {l m : List Nat} (h : l <+: m) (hlen : m.length ≤ l.length) :
    l = m := by
  rcases h with ⟨t, rfl⟩
  rw [List.length_append] at hlen
  have ht : t = [] := List.eq_nil_of_length_eq_zero (by omega)
  subst ht
  simp

/-- The candidate preference order is irreflexive. -/
theorem better_irrefl (score : Nat → Nat) (a : Nat) : ¬ Better score a a := by
  unfold Better
  omega

/-- The candidate preference order is transitive. -/
theorem better_trans {score : Nat → Nat} {a b c : Nat}
    (h1 : Better score a b) (h2 : Better score b c) : Better score a c := by
  unfold Better at h1 h2 ⊢
  omega

/-- Any two distinct candidates are comparable: the score with the
canonical-key tie-break is a strict total order. -/
theorem better_total {score : Nat → Nat} {a b : Nat} (h : a ≠ b) :
    Better score a b ∨ Better score b a := by
  unfold Better
  omega

/-- The fold selecting the best candidate returns the accumulator or a list
member. -/
theorem pickMaxAux_mem (score : Nat → Nat) :
    ∀ (l : List Nat) (acc : Nat),
      pickMaxAux score acc l = acc ∨ pickMaxAux score acc l ∈ l := by
  intro l
  induction l with
  | nil =>
    intro acc
    exact Or.inl rfl
  | cons y ys ih =>
    intro acc
    simp only [pickMaxAux]
    by_cases hb : Better score y acc
    · rw [if_pos hb]
      rcases ih y with h | h
      · right
        rw [h]
        exact List.mem_cons_self y ys
      · right
        exact List.mem_cons_of_mem y h
    · rw [if_neg hb]
      rcases ih acc with h | h
      · left
        exact h
      · right
        exact List.mem_cons_of_mem y h

/-- No candidate among the accumulator and the list beats the selected
candidate. -/
theorem pickMaxAux_not_lt (score : Nat → Nat) :
    ∀ (l : List Nat) (acc x : Nat), (x = acc ∨ x ∈ l) →
      ¬ Better score x (pickMaxAux score acc l) := by
  intro l
  induction l with
  | nil =>
    intro acc x hx
    rcases hx with rfl | hx
    · exact better_irrefl score x
    · cases hx
  | cons y ys ih =>
    intro acc x hx
    simp only [pickMaxAux]
    by_cases hb : Better score y acc
    · rw [if_pos hb]
      rcases hx with hxa | hx
      · rw [hxa]
        intro hcontra
        exact ih y y (Or.inl rfl) (better_trans hb hcontra)
      · rcases List.mem_cons.mp hx with hxy | hx2
        · rw [hxy]
          exact ih y y (Or.inl rfl)
        · exact ih y x (Or.inr hx2)
    · rw [if_neg hb]
      rcases hx with hxa | hx
      · rw [hxa]
        exact ih acc acc (Or.inl rfl)
      · rcases List.mem_cons.mp hx with hxy | hx2
        · intro hcontra
          by_cases hya : x = acc
          · rw [hya] at hcontra
            exact ih acc acc (Or.inl rfl) hcontra
          · rcases better_total hya with h1 | h1
            · rw [hxy] at h1
              exact hb h1
            · exact ih acc acc (Or.inl rfl) (better_trans h1 hcontra)
        · exact ih acc x (Or.inr hx2)

/-- Under a strict total order, a set has at most one maximum. -/
theorem pickMax_unique (score : Nat → Nat) (P : Nat → Prop) (m1 m2 : Nat)
    (h1 : P m1) (h2 : ∀ x, P x → ¬ Better score x m1)
    (h3 : P m2) (h4 : ∀ x, P x → ¬ Better score x m2) : m1 = m2 := by
  by_contra hne
  rcases better_total hne with h | h
  · exact h4 m1 h1 h
  · exact h2 m2 h3 h

/-- The selected best candidate depends only on the membership of the
candidate pool, not on its order or duplication. -/
theorem pickMax_congr (score : Nat → Nat) (a b : Nat) (l m : List Nat)
    (h : ∀ x, (x = a ∨ x ∈ l) ↔ (x = b ∨ x ∈ m)) :
    pickMaxAux score a l = pickMaxAux score b m := by
  apply pickMax_unique score (fun x => x = b ∨ x ∈ m)
  · exact (h (pickMaxAux score a l)).mp (pickMaxAux_mem score l a)
  · intro x hx
    exact pickMaxAux_not_lt score l a x ((h x).mpr hx)
  · exact pickMaxAux_mem score m b
  · intro x hx
    exact pickMaxAux_not_lt score m b x hx

/-- Inserting a candidate extends the discovered list on the right. -/
theorem insertNew_extends (N : Nat) (c : List Nat) (n : Nat) :
    c <+: insertNew N c n := by
  unfold insertNew
  split
  · exact List.prefix_rfl
  · split
    · exact List.prefix_rfl
    · exact ⟨[n], rfl⟩

/-- Members after an insertion are old members or the inserted candidate. -/
theorem insertNew_mem {N : Nat} {c : List Nat} {n x : Nat}
    (h : x ∈ insertNew N c n) : x ∈ c ∨ x = n := by
  unfold insertNew at h
  split at h
  · exact Or.inl h
  · split at h
    · exact Or.inl h
    · rcases List.mem_append.mp h with h2 | h2
      · exact Or.inl h2
      · exact Or.inr (List.mem_singleton.mp h2)

/-- An insertion that leaves the list unchanged was blocked by the bound or
by the candidate already being present. -/
theorem insertNew_eq_cases {N : Nat} {c : List Nat} {n : Nat}
    (h : insertNew N c n = c) : N ≤ c.length ∨ n ∈ c := by
  unfold insertNew at h
  split at h
  · left
    assumption
  · split at h
    · right
      assumption
    · exfalso
      have hl := congrArg List.length h
      rw [List.length_append] at hl
      simp at hl

/-- A left fold whose every step extends its state extends the initial
state. -/
theorem foldl_extends {α : Type} (f : List Nat → α → List Nat)
    (hf : ∀ c a, c <+: f c a) :
    ∀ (l : List α) (c : List Nat), c <+: l.foldl f c := by
  intro l
  induction l with
  | nil =>
    intro c
    exact List.prefix_rfl
  | cons x xs ih =>
    intro c
    exact List.IsPrefix.trans (hf c x) (ih (f c x))

/-- If a left fold whose every step extends its state returns the initial
state, then every individual step left the state unchanged. -/
theorem foldl_eq_self {α : Type} (f : List Nat → α → List Nat)
    (hf : ∀ c a, c <+: f c a) :
    ∀ (l : List α) (c : List Nat), l.foldl f c = c → ∀ a ∈ l, f c a = c := by
  intro l
  induction l with
  | nil =>
    intro c _ a ha
    cases ha
  | cons x xs ih =>
    intro c hfold a ha
    rw [List.foldl_cons] at hfold
    have h2 : f c x <+: xs.foldl f (f c x) := foldl_extends f hf xs (f c x)
    rw [hfold] at h2
    have hx : f c x = c :=
      prefix_eq_of_le h2 (List.IsPrefix.length_le (hf c x))
    rcases List.mem_cons.mp ha with hax | ha2
    · rw [hax]
      exact hx
    · rw [hx] at hfold
      exact ih c hfold a ha2

/-- One expansion pass extends the discovered list on the right. -/
theorem expandOnce_extends (nb : Nat → List Nat) (N : Nat) (acc : List Nat) :
    acc <+: expandOnce nb N acc :=
  foldl_extends (fun cur m => (nb m).foldl (insertNew N) cur)
    (fun c m => foldl_extends (insertNew N) (insertNew_extends N) (nb m) c)
    acc acc

/-- A fold of insertions over a list already at the bound changes nothing. -/
theorem foldl_insert_full (N : Nat) (c : List Nat) (h : N ≤ c.length) :
    ∀ l : List Nat, l.foldl (insertNew N) c = c := by
  intro l
  induction l with
  | nil => rfl
  | cons x xs ih =>
    have h1 : insertNew N c x = c := by
      unfold insertNew
      rw [if_pos h]
    rw [List.foldl_cons, h1]
    exact ih

/-- An expansion pass on a discovered list already at the bound changes
nothing. -/
theorem expandOnce_full (nb : Nat → List Nat) (N : Nat) (acc : List Nat)
    (h : N ≤ acc.length) : expandOnce nb N acc = acc := by
  unfold expandOnce
  exact foldl_invariant (fun c => c = acc) _ acc acc rfl
    (fun d a hd _ => by
      rw [hd]
      exact foldl_insert_full N acc h (nb a))

/-- A stable discovered list strictly below the bound is closed under the
rewrite relation: every rule application on a member stays inside it. -/
theorem expandOnce_closed (nb : Nat → List Nat) (N : Nat) (acc : List Nat)
    (h : expandOnce nb N acc = acc) (hlen : acc.length < N) :
    ∀ m ∈ acc, ∀ n ∈ nb m, n ∈ acc := by
  intro m hm n hn
  unfold expandOnce at h
  have h1 : (nb m).foldl (insertNew N) acc = acc :=
    foldl_eq_self (fun c m2 => (nb m2).foldl (insertNew N) c)
      (fun c m2 => foldl_extends (insertNew N) (insertNew_extends N) (nb m2) c)
      acc acc h m hm
  have h2 : insertNew N acc n = acc :=
    foldl_eq_self (insertNew N) (insertNew_extends N) (nb m) acc h1 n hn
  rcases insertNew_eq_cases h2 with h3 | h3
  · omega
  · exact h3

/-- Members discovered in one expansion pass are reachable from the seed
whenever all current members are. -/
theorem expandOnce_sound (nb : Nat → List Nat) (N seed : Nat) (acc : List Nat)
    (h : ∀ x ∈ acc, Reaches nb seed x) :
    ∀ x ∈ expandOnce nb N acc, Reaches nb seed x := by
  unfold expandOnce
  apply foldl_invariant (fun c => ∀ x ∈ c, Reaches nb seed x) _ acc acc h
  intro d m hd hm
  apply foldl_invariant (fun c => ∀ x ∈ c, Reaches nb seed x) _ (nb m) d hd
  intro e n he hn x hx
  rcases insertNew_mem hx with h1 | h1
  · exact he x h1
  · rw [h1]
    exact Relation.ReflTransGen.tail (h m hm) hn

/-- Iterated expansion extends the discovered list on the right. -/
theorem enumAux_extends (nb : Nat → List Nat) (N : Nat) :
    ∀ (fuel : Nat) (acc : List Nat), acc <+: enumAux nb N fuel acc := by
  intro fuel
  induction fuel with
  | zero =>
    intro acc
    exact List.prefix_rfl
  | succ fuel ih =>
    intro acc
    simp only [enumAux]
    by_cases hs : expandOnce nb N acc = acc
    · rw [if_pos hs]
    · rw [if_neg hs]
      exact List.IsPrefix.trans (expandOnce_extends nb N acc) (ih _)

/-- With fuel at least the gap between the current size and the bound, the
returned discovered list is a fixed point of expansion: the iteration only
stops at a stable list. -/
theorem enumAux_stable (nb : Nat → List Nat) (N : Nat) :
    ∀ (fuel : Nat) (acc : List Nat), N ≤ acc.length + fuel →
      expandOnce nb N (enumAux nb N fuel acc) = enumAux nb N fuel acc := by
  intro fuel
  induction fuel with
  | zero =>
    intro acc h
    simp only [enumAux]
    exact expandOnce_full nb N acc (by omega)
  | succ fuel ih =>
    intro acc h
    simp only [enumAux]
    by_cases hs : expandOnce nb N acc = acc
    · rw [if_pos hs]
      exact hs
    · rw [if_neg hs]
      apply ih
      have hpre : acc <+: expandOnce nb N acc := expandOnce_extends nb N acc
      have hlt : acc.length < (expandOnce nb N acc).length := by
        rcases Nat.lt_or_ge acc.length (expandOnce nb N acc).length with h1 | h1
        · exact h1
        · exact absurd (prefix_eq_of_le hpre h1).symm hs
      omega

/-- Members of the iterated expansion are reachable from the seed whenever
all initial members are. -/
theorem enumAux_sound (nb : Nat → List Nat) (N seed : Nat) :
    ∀ (fuel : Nat) (acc : List Nat), (∀ x ∈ acc, Reaches nb seed x) →
      ∀ x ∈ enumAux nb N fuel acc, Reaches nb seed x := by
  intro fuel
  induction fuel with
  | zero =>
    intro acc h
    simpa only [enumAux] using h
  | succ fuel ih =>
    intro acc h
    simp only [enumAux]
    by_cases hs : expandOnce nb N acc = acc
    · rw [if_pos hs]
      exact h
    · rw [if_neg hs]
      exact ih _ (expandOnce_sound nb N seed acc h)

/-- The seed is always a member of the enumerated tautomer list. -/
theorem seed_mem_enumerate (nb : Nat → List Nat) (seed N : Nat) :
    seed ∈ enumerate nb seed N :=
  List.IsPrefix.subset (enumAux_extends nb N N [seed]) (List.mem_cons_self seed [])

/-- The enumerated tautomer list is a fixed point of expansion. -/
theorem enumerate_stable (nb : Nat → List Nat) (seed N : Nat) :
    expandOnce nb N (enumerate nb seed N) = enumerate nb seed N :=
  enumAux_stable nb N N [seed] (by simp)

/-- An enumeration that stops strictly below the bound has found the whole
closed tautomer set: no rule application escapes it. -/
theorem enumerate_closed (nb : Nat → List Nat) (seed N : Nat)
    (h : (enumerate nb seed N).length < N) :
    closedUnder nb (enumerate nb seed N) :=
  expandOnce_closed nb N (enumerate nb seed N) (enumerate_stable nb seed N) h

/-- Every enumerated tautomer is reachable from the seed by rewrites. -/
theorem enumerate_sound (nb : Nat → List Nat) (seed N : Nat) :
    ∀ x ∈ enumerate nb seed N, Reaches nb seed x := by
  apply enumAux_sound
  intro x hx
  rw [List.mem_singleton.mp hx]

/-- A closed list containing the seed contains everything reachable from
the seed. -/
theorem enumerate_complete_gen (nb : Nat → List Nat) (L : List Nat) (seed : Nat)
    (hcl : closedUnder nb L) (hseed : seed ∈ L) :
    ∀ x, Reaches nb seed x → x ∈ L := by
  intro x h
  induction h with
  | refl => exact hseed
  | tail hab hbc ih => exact hcl _ ih _ hbc

/-- When the rewrite relation is symmetric, reachability is symmetric. -/
theorem reaches_symm (nb : Nat → List Nat) (hsym : ∀ a b, a ∈ nb b → b ∈ nb a)
    {x y : Nat} (h : Reaches nb x y) : Reaches nb y x := by
  induction h with
  | refl => exact Relation.ReflTransGen.refl
  | tail hab hbc ih => exact Relation.ReflTransGen.head (hsym _ _ hbc) ih

/-- For a symmetric rule set, two untruncated enumerations started anywhere
in the same tautomer class discover exactly the same tautomers. -/
theorem enumerate_mem_iff (nb : Nat → List Nat) (seed w N : Nat)
    (hsym : ∀ a b, a ∈ nb b → b ∈ nb a)
    (h1 : (enumerate nb seed N).length < N)
    (h2 : (enumerate nb w N).length < N)
    (hw : w ∈ enumerate nb seed N) :
    ∀ x, x ∈ enumerate nb seed N ↔ x ∈ enumerate nb w N := by
  have hws : Reaches nb seed w := enumerate_sound nb seed N w hw
  have hsw : Reaches nb w seed := reaches_symm nb hsym hws
  intro x
  constructor
  · intro hx
    exact enumerate_complete_gen nb (enumerate nb w N) w (enumerate_closed nb w N h2)
      (seed_mem_enumerate nb w N) x
      (Relation.ReflTransGen.trans hsw (enumerate_sound nb seed N x hx))
  · intro hx
    exact enumerate_complete_gen nb (enumerate nb seed N) seed
      (enumerate_closed nb seed N h1) (seed_mem_enumerate nb seed N) x
      (Relation.ReflTransGen.trans hws (enumerate_sound nb w N x hx))

/-- The canonical winner is always one of the enumerated tautomers. -/
theorem canonWinner_mem (nb : Nat → List Nat) (score : Nat → Nat) (seed N : Nat) :
    canonWinner nb score seed N ∈ enumerate nb seed N := by
  unfold canonWinner
  rcases pickMaxAux_mem score (enumerate nb seed N) seed with h | h
  · rw [h]
    exact seed_mem_enumerate nb seed N
  · exact h

end Engine

namespace FetchIupac

/-- The entry built for a SMILES keeps that SMILES. -/
theorem entryFor_smiles (lookup : String → LookupOutcome) (s : String) :
    (entryFor lookup s).smiles = s := by
  unfold entryFor
  rcases lookup s with _ | _ | i <;> rfl

/-- The batch-writing loop never touches a batch file that already exists:
its prior content survives every iteration. -/
theorem writeBatches_preserves (lookup : String → LookupOutcome)
    (smiles : List String) (fs0 : FS) (n : Nat) (data : List IUPACEntry)
    (h : fs0.batchFile n = some data) :
    (writeBatches lookup smiles fs0).batchFile n = some data := by
  unfold writeBatches
  apply Engine.foldl_invariant (fun fs : FS => fs.batchFile n = some data) _ _ fs0 h
  intro fs k hfs _
  by_cases hs : (fs.batchFile (k + 1)).isSome
  · rw [if_pos hs]
    exact hfs
  · rw [if_neg hs]
    show (FS.setBatch fs (k + 1) _).batchFile n = some data
    unfold FS.setBatch
    by_cases hn : n = k + 1
    · rw [← hn] at hs
      rw [hfs] at hs
      simp at hs
    · show (if n = k + 1 then some (fetch_iupac_batch lookup (batchOf smiles k))
          else fs.batchFile n) = some data
      rw [if_neg hn]
      exact hfs

/-- Membership in the merge fold: an entry in an existing batch file whose
number is traversed ends up in the merged list. -/
theorem merge_foldl_mem (fs : FS) (e : IUPACEntry) :
    ∀ (l : List Nat) (acc : List IUPACEntry),
      (e ∈ acc ∨ ∃ k ∈ l, ∃ data, fs.batchFile (k + 1) = some data ∧ e ∈ data) →
      e ∈ l.foldl
        (fun acc2 k =>
          match fs.batchFile (k + 1) with
          | some data => acc2 ++ data
          | none => acc2)
        acc := by
  intro l
  induction l with
  | nil =>
    intro acc h
    rcases h with h | ⟨k, hk, _⟩
    · exact h
    · cases hk
  | cons x xs ih =>
    intro acc h
    rw [List.foldl_cons]
    apply ih
    rcases h with h | ⟨k, hk, data, hd, he⟩
    · left
      rcases hfsx : fs.batchFile (x + 1) with _ | d
      · simp only [hfsx]
        exact h
      · simp only [hfsx]
        exact List.mem_append_left d h
    · rcases List.mem_cons.mp hk with hkx | hk2
      · left
        rw [hkx] at hd
        simp only [hd]
        exact List.mem_append_right acc he
      · right
        exact ⟨k, hk2, data, hd, he⟩

/-- An entry of an existing batch file with number between 1 and the merge
bound appears in the merged result. -/
theorem mergeBatches_mem (fs : FS) (n b : Nat) (data : List IUPACEntry)
    (hb1 : 1 ≤ b) (hbn : b ≤ n) (h : fs.batchFile b = some data) :
    ∀ e ∈ data, e ∈ mergeBatches fs n := by
  intro e he
  unfold mergeBatches
  apply merge_foldl_mem
  right
  refine ⟨b - 1, ?_, data, ?_, he⟩
  · rw [List.mem_range]
    omega
  · have hb : b - 1 + 1 = b := by omega
    rw [hb]
    exact h

end FetchIupac

/-- The two-molecule rule set nbPair is symmetric. -/
theorem nbPair_symm : ∀ a b, a ∈ nbPair b → b ∈ nbPair a := by
  intro a b h
  unfold nbPair at h ⊢
  by_cases hb0 : b = 0
  · rw [hb0] at h ⊢
    simp at h
    rw [h]
    simp
  · by_cases hb1 : b = 1
    · rw [hb1] at h ⊢
      rw [if_neg (by omega), if_pos rfl] at h
      simp at h
      rw [h]
      simp
    · rw [if_neg hb0, if_neg hb1] at h
      cases h

/-- Inversion of the high-complexity harness on a successful parse: the
returned record is exactly the one built from the enumeration. -/
theorem hcEnumerateOk (parse : String → Option Nat)
    (nb : Nat → List Nat) (score : Nat → Nat) (s : String) (N mol : Nat)
    (r : HighComplexity.HCResult) (h1 : parse s = some mol)
    (h2 : HighComplexity.enumerate_tautomers_rdkit parse nb score s N = Except.ok r) :
    r = ⟨s, (Engine.enumerate nb mol N).length,
      (Engine.enumerate nb mol N).take 20,
      Engine.canonWinner nb score mol N,
      decide (20 < (Engine.enumerate nb mol N).length)⟩ := by
  unfold HighComplexity.enumerate_tautomers_rdkit at h2
  rw [h1] at h2
  exact (Except.ok.inj h2).symm

/-- Inversion of the compare-tautomers harness on a successful parse. -/
theorem cmpEnumerateOk (parse : String → Option Nat)
    (nb : Nat → List Nat) (score : Nat → Nat) (s : String) (N mol : Nat)
    (r : CompareTautomers.TautResult) (h1 : parse s = some mol)
    (h2 : CompareTautomers.enumerate_tautomers_rdkit parse nb score s N = Except.ok r) :
    r = ⟨s, (Engine.enumerate nb mol N).length, Engine.enumerate nb mol N,
      Engine.canonWinner nb score mol N⟩ := by
  unfold CompareTautomers.enumerate_tautomers_rdkit at h2
  rw [h1] at h2
  exact (Except.ok.inj h2).symm

/-- C1 counterexample: the truncated flag of the enumeration entry point in
high-complexity-tautomers.py is not equivalent to the untruncated fixed
point exceeding the bound N.  On the 21-molecule chain with N = 100 the
enumerated set is the complete fixed point (closed under the rules,
duplicate-free, containing the seed) of cardinality 21 <= 100, yet the
returned truncated flag is true, because the code computes the flag as
len(results) > 20. -/
theorem C1_counterexample :
    ((HighComplexity.enumerate_tautomers_rdkit parseW nbChain scoreId sChain
        100).toOption.map HighComplexity.HCResult.truncated = some true) ∧
    Engine.closedUnder nbChain (Engine.enumerate nbChain 0 100) ∧
    0 ∈ Engine.enumerate nbChain 0 100 ∧
    (Engine.enumerate nbChain 0 100).Nodup ∧
    (Engine.enumerate nbChain 0 100).length = 21 := by
  refine ⟨?_, ?_, ?_, ?_, ?_⟩ <;> decide

/-- C1 (amended): for every successfully parsed seed and every bound, the
truncated flag on the result of the high-complexity harness is true if and
only if the full enumerated count exceeds 20, equivalently iff the returned
tautomers list (capped at 20 entries) is strictly shorter than the count;
the flag reports truncation of the displayed list at 20, not that the
maxCount bound was reached. -/
theorem C1_truncated_flag (parse : String → Option Nat) (nb : Nat → List Nat)
    (score : Nat → Nat) (s : String) (N mol : Nat) (r : HighComplexity.HCResult)
    (h1 : parse s = some mol)
    (h2 : HighComplexity.enumerate_tautomers_rdkit parse nb score s N = Except.ok r) :
    (r.truncated = true ↔ 20 < r.count) ∧
    (r.truncated = true ↔ r.tautomers.length < r.count) := by
  rw [hcEnumerateOk parse nb score s N mol r h1 h2]
  constructor
  · show decide (20 < (Engine.enumerate nb mol N).length) = true ↔
      20 < (Engine.enumerate nb mol N).length
    simp only [decide_eq_true_eq]
  · show decide (20 < (Engine.enumerate nb mol N).length) = true ↔
      ((Engine.enumerate nb mol N).take 20).length < (Engine.enumerate nb mol N).length
    rw [List.length_take]
    simp only [decide_eq_true_eq]
    omega

/-- C1 witness: the amended flag equivalence instantiated on the chain
instance at bound 100. -/
theorem C1_truncated_flag_witness :
    parseW sChain = some 0 ∧
    ((rChain.truncated = true ↔ 20 < rChain.count) ∧
     (rChain.truncated = true ↔ rChain.tautomers.length < rChain.count)) :=
  ⟨rfl, C1_truncated_flag parseW nbChain scoreId sChain 100 0 rChain rfl rfl⟩

/-- C2: for every successfully parsed seed molecule and every maxCount, the
canonical tautomer in the result of the compare-tautomers harness is a
member of the enumerated tautomer list of the same call. -/
theorem C2_canonical_mem (parse : String → Option Nat) (nb : Nat → List Nat)
    (score : Nat → Nat) (s : String) (N : Nat) (r : CompareTautomers.TautResult)
    (h : CompareTautomers.enumerate_tautomers_rdkit parse nb score s N = Except.ok r) :
    r.canonical ∈ r.tautomers := by
  unfold CompareTautomers.enumerate_tautomers_rdkit at h
  rcases hp : parse s with _ | mol
  · rw [hp] at h
    cases h
  · rw [hp] at h
    rw [← Except.ok.inj h]
    show Engine.canonWinner nb score mol N ∈ Engine.enumerate nb mol N
    exact Engine.canonWinner_mem nb score mol N

/-- C2 witness: on the chain instance at bound 100 the canonical tautomer
is in the returned list. -/
theorem C2_witness : rCmp.canonical ∈ rCmp.tautomers :=
  C2_canonical_mem parseW nbChain scoreId sChain 100 rCmp rfl

/-- C3: when the seed fails to parse, the compare-tautomers harness returns
exactly the parse error and never a success record carrying tautomers,
count, canonical form or truncated flag. -/
theorem C3_parse_failure (parse : String → Option Nat) (nb : Nat → List Nat)
    (score : Nat → Nat) (s : String) (N : Nat) (h : parse s = none) :
    CompareTautomers.enumerate_tautomers_rdkit parse nb score s N =
      Except.error ("Failed to parse SMILES: " ++ s) ∧
    ∀ r, CompareTautomers.enumerate_tautomers_rdkit parse nb score s N ≠
      Except.ok r := by
  constructor
  · unfold CompareTautomers.enumerate_tautomers_rdkit
    rw [h]
  · intro r hr
    unfold CompareTautomers.enumerate_tautomers_rdkit at hr
    rw [h] at hr
    cases hr

/-- C3 witness: the failing parser yields exactly the error value. -/
theorem C3_witness :
    CompareTautomers.enumerate_tautomers_rdkit parseNone nbChain scoreId sChain 32 =
      Except.error ("Failed to parse SMILES: " ++ sChain) :=
  (C3_parse_failure parseNone nbChain scoreId sChain 32 rfl).1

/-- C4: canonicalization through the compare-tautomers harness is
deterministic: two calls with identical seed and identical maxCount return
identical results, winner and full ordered tautomer list included; in this
embedding the engine is a pure function of the seed and the bound, so no
hidden state or randomness can influence the result. -/
theorem C4_deterministic (parse : String → Option Nat) (nb : Nat → List Nat)
    (score : Nat → Nat) (s1 s2 : String) (n1 n2 : Nat) (hs : s1 = s2)
    (hn : n1 = n2) :
    CompareTautomers.enumerate_tautomers_rdkit parse nb score s1 n1 =
      CompareTautomers.enumerate_tautomers_rdkit parse nb score s2 n2 := by
  rw [hs, hn]

/-- C4 witness: repeated identical calls on the chain instance agree. -/
theorem C4_witness :
    CompareTautomers.enumerate_tautomers_rdkit parseW nbChain scoreId sChain 32 =
      CompareTautomers.enumerate_tautomers_rdkit parseW nbChain scoreId sChain 32 :=
  C4_deterministic parseW nbChain scoreId sChain sChain 32 32 rfl rfl

/-- C5 counterexample: canonicalization is not idempotent for every seed and
maxCount.  On the symmetric four-molecule system nbC (edges 0-1, 0-2, 1-3)
with scorer scoreC and maxCount 2, canonicalizing the seed 0 yields winner
1, but canonicalizing 1 yields winner 3: under truncation the enumerations
from 0 and from 1 discover different subsets of the tautomer class. -/
theorem C5_counterexample :
    (∀ a ∈ [0, 1, 2, 3], ∀ b ∈ [0, 1, 2, 3], a ∈ nbC b → b ∈ nbC a) ∧
    Engine.canonWinner nbC scoreC (Engine.canonWinner nbC scoreC 0 2) 2 ≠
      Engine.canonWinner nbC scoreC 0 2 := by
  refine ⟨?_, ?_⟩ <;> decide

/-- C5 (amended): canonicalization is idempotent whenever the rule set is
symmetric and maxCount is large enough that neither the enumeration from
the seed nor the enumeration from its winner is truncated: then
canonicalize(canonicalize(seed, maxCount).winner, maxCount).winner equals
canonicalize(seed, maxCount).winner. -/
theorem C5_idempotent (nb : Nat → List Nat) (score : Nat → Nat) (seed N : Nat)
    (hsym : ∀ a b, a ∈ nb b → b ∈ nb a)
    (h1 : (Engine.enumerate nb seed N).length < N)
    (h2 : (Engine.enumerate nb (Engine.canonWinner nb score seed N) N).length < N) :
    Engine.canonWinner nb score (Engine.canonWinner nb score seed N) N =
      Engine.canonWinner nb score seed N := by
  have hwmem : Engine.canonWinner nb score seed N ∈ Engine.enumerate nb seed N :=
    Engine.canonWinner_mem nb score seed N
  have hiff := Engine.enumerate_mem_iff nb seed (Engine.canonWinner nb score seed N)
    N hsym h1 h2 hwmem
  show Engine.pickMaxAux score (Engine.canonWinner nb score seed N)
      (Engine.enumerate nb (Engine.canonWinner nb score seed N) N) =
    Engine.pickMaxAux score seed (Engine.enumerate nb seed N)
  apply Engine.pickMax_congr
  intro x
  constructor
  · rintro (hxw | hx)
    · right
      rw [hxw]
      exact hwmem
    · right
      exact (hiff x).mpr hx
  · rintro (hxs | hx)
    · right
      rw [hxs]
      exact (hiff seed).mp (Engine.seed_mem_enumerate nb seed N)
    · right
      exact (hiff x).mp hx

/-- C5 witness: on the untruncated two-molecule system the canonical winner
is a fixed point of canonicalization. -/
theorem C5_witness :
    Engine.canonWinner nbPair scoreId (Engine.canonWinner nbPair scoreId 0 5) 5 =
      Engine.canonWinner nbPair scoreId 0 5 :=
  C5_idempotent nbPair scoreId 0 5 nbPair_symm (by decide) (by decide)

/-- C6: a seed to which no rule applies enumerates to exactly the singleton
list containing the unmodified seed, its canonical winner is the seed, and
the harness result reports that single tautomer with the truncated flag
false. -/
theorem C6_no_rules (nb : Nat → List Nat) (score : Nat → Nat) (seed N : Nat)
    (h : nb seed = []) :
    Engine.enumerate nb seed N = [seed] ∧
    Engine.canonWinner nb score seed N = seed ∧
    ∀ (parse : String → Option Nat) (s : String) (r : HighComplexity.HCResult),
      parse s = some seed →
      HighComplexity.enumerate_tautomers_rdkit parse nb score s N = Except.ok r →
      r.tautomers = [seed] ∧ r.count = 1 ∧ r.truncated = false ∧
        r.canonical = seed := by
  have hexp : Engine.expandOnce nb N [seed] = [seed] := by
    unfold Engine.expandOnce
    simp only [List.foldl_cons, List.foldl_nil]
    rw [h]
    rfl
  have henum : Engine.enumerate nb seed N = [seed] := by
    unfold Engine.enumerate
    cases N with
    | zero => rfl
    | succ n =>
      simp only [Engine.enumAux]
      rw [if_pos hexp]
  have hwin : Engine.canonWinner nb score seed N = seed := by
    unfold Engine.canonWinner
    rw [henum]
    simp only [Engine.pickMaxAux]
    exact ite_self seed
  refine ⟨henum, hwin, ?_⟩
  intro parse s r hp hok
  rw [hcEnumerateOk parse nb score s N seed r hp hok]
  refine ⟨?_, ?_, ?_, ?_⟩
  · show (Engine.enumerate nb seed N).take 20 = [seed]
    rw [henum]
    rfl
  · show (Engine.enumerate nb seed N).length = 1
    rw [henum]
    rfl
  · show decide (20 < (Engine.enumerate nb seed N).length) = false
    rw [henum]
    rfl
  · exact hwin

/-- C6 witness: the rule-free instance at seed 7 and bound 32. -/
theorem C6_witness :
    Engine.enumerate nbEmpty 7 32 = [7] ∧
    Engine.canonWinner nbEmpty scoreId 7 32 = 7 ∧
    HighComplexity.enumerate_tautomers_rdkit parseW7 nbEmpty scoreId sChain 32 =
      Except.ok ⟨sChain, 1, [7], 7, false⟩ := by
  have hthm := C6_no_rules nbEmpty scoreId 7 32 rfl
  exact ⟨hthm.1, hthm.2.1, rfl⟩

/-- C7: the only configuration parameter threaded through the harnesses is
the positive integer maxCount: the compare-tautomers harness (and the
identical extended-tests harness) defaults it to 32 and the high-complexity
stress harness defaults it to 100; apart from the seed, the harness
signatures accept nothing else that influences the engine. -/
theorem C7_config (parse : String → Option Nat) (nb : Nat → List Nat)
    (score : Nat → Nat) (s : String) :
    CompareTautomers.enumerate_tautomers_rdkit_default parse nb score s =
      CompareTautomers.enumerate_tautomers_rdkit parse nb score s 32 ∧
    HighComplexity.enumerate_tautomers_rdkit_default parse nb score s =
      HighComplexity.enumerate_tautomers_rdkit parse nb score s 100 ∧
    0 < 32 ∧ 0 < 100 :=
  ⟨rfl, rfl, by omega, by omega⟩

/-- C8: for every successfully parsed input, the high-complexity harness
returns as tautomers exactly the first 20 enumerated tautomers in
enumeration order, returns as count the full number of enumerated
tautomers, and therefore count strictly exceeds the length of the returned
tautomers list whenever more than 20 tautomers were enumerated. -/
theorem C8_display_cap (parse : String → Option Nat) (nb : Nat → List Nat)
    (score : Nat → Nat) (s : String) (N mol : Nat) (r : HighComplexity.HCResult)
    (h1 : parse s = some mol)
    (h2 : HighComplexity.enumerate_tautomers_rdkit parse nb score s N = Except.ok r) :
    r.tautomers = (Engine.enumerate nb mol N).take 20 ∧
    r.count = (Engine.enumerate nb mol N).length ∧
    r.tautomers.length ≤ 20 ∧
    (20 < r.count → r.tautomers.length < r.count) := by
  rw [hcEnumerateOk parse nb score s N mol r h1 h2]
  refine ⟨rfl, rfl, ?_, ?_⟩
  · show ((Engine.enumerate nb mol N).take 20).length ≤ 20
    rw [List.length_take]
    omega
  · show 20 < (Engine.enumerate nb mol N).length →
      ((Engine.enumerate nb mol N).take 20).length < (Engine.enumerate nb mol N).length
    rw [List.length_take]
    omega

/-- C8 witness: on the 21-tautomer chain the count (21) strictly exceeds
the 20-entry displayed list. -/
theorem C8_witness :
    parseW sChain = some 0 ∧
    rChain.tautomers = (Engine.enumerate nbChain 0 100).take 20 ∧
    rChain.count = (Engine.enumerate nbChain 0 100).length ∧
    rChain.tautomers.length ≤ 20 ∧
    (20 < rChain.count → rChain.tautomers.length < rChain.count) ∧
    20 < rChain.count := by
  have hthm := C8_display_cap parseW nbChain scoreId sChain 100 0 rChain rfl rfl
  exact ⟨rfl, hthm.1, hthm.2.1, hthm.2.2.1, hthm.2.2.2, by decide⟩

/-- C9: fetch_iupac_batch returns exactly one entry per input SMILES in
input order (projecting the SMILES field recovers the input batch, and the
lengths agree), and every entry whose lookup raised an exception or found
no compound carries the empty IUPAC name; the function is total, so no
exception propagates and no input is dropped. -/
theorem C9_batch_shape (lookup : String → FetchIupac.LookupOutcome)
    (batch : List String) :
    ((FetchIupac.fetch_iupac_batch lookup batch).map (fun e => e.smiles) = batch) ∧
    (FetchIupac.fetch_iupac_batch lookup batch).length = batch.length ∧
    ∀ e ∈ FetchIupac.fetch_iupac_batch lookup batch,
      (lookup e.smiles = FetchIupac.LookupOutcome.raised ∨
        lookup e.smiles = FetchIupac.LookupOutcome.noCompound) →
      e.iupacName = "" := by
  refine ⟨?_, ?_, ?_⟩
  · unfold FetchIupac.fetch_iupac_batch
    rw [List.map_map]
    have hcomp : ((fun e : FetchIupac.IUPACEntry => e.smiles) ∘
        FetchIupac.entryFor lookup) = id := by
      funext s
      exact FetchIupac.entryFor_smiles lookup s
    rw [hcomp]
    exact List.map_id batch
  · unfold FetchIupac.fetch_iupac_batch
    exact List.length_map batch (FetchIupac.entryFor lookup)
  · intro e he hcase
    rcases List.mem_map.mp he with ⟨s, hs, hes⟩
    rw [← hes] at hcase ⊢
    rw [FetchIupac.entryFor_smiles lookup s] at hcase
    unfold FetchIupac.entryFor
    rcases hl : lookup s with _ | _ | i
    · rfl
    · rfl
    · rw [hl] at hcase
      rcases hcase with hc | hc <;> cases hc

/-- C9 witness: a two-SMILES batch where one lookup raises still yields an
entry per input, and the raising entry has an empty name. -/
theorem C9_witness :
    ((FetchIupac.fetch_iupac_batch lookupW linesW).map (fun e => e.smiles) = linesW) ∧
    (FetchIupac.fetch_iupac_batch lookupW linesW).length = linesW.length ∧
    (FetchIupac.entryFor lookupW sBad).iupacName = "" := by
  have hthm := C9_batch_shape lookupW linesW
  exact ⟨hthm.1, hthm.2.1, rfl⟩

/-- C10: the fetch script never overwrites an existing per-batch output
file: whatever content a batch file held before the run is still its
content afterwards (the freshly fetched results for that batch are
discarded), and, for a batch number within the merge range, that preserved
content flows into the merged all_results output. -/
theorem C10_no_overwrite (lookup : String → FetchIupac.LookupOutcome)
    (smilesFile : Option (List String)) (fs0 : FetchIupac.FS) (n : Nat)
    (data : List FetchIupac.IUPACEntry) (h : fs0.batchFile n = some data) :
    ((FetchIupac.main lookup smilesFile fs0).batchFile n = some data) ∧
    ∀ lines, smilesFile = some lines → 1 ≤ n →
      n ≤ FetchIupac.numBatches ((FetchIupac.stripLines lines).take 300) →
      ∀ e ∈ data, e ∈ (FetchIupac.main lookup smilesFile fs0).allResults.getD [] := by
  constructor
  · unfold FetchIupac.main
    cases smilesFile with
    | none => exact h
    | some lines =>
      exact FetchIupac.writeBatches_preserves lookup
        ((FetchIupac.stripLines lines).take 300) fs0 n data h
  · intro lines hlines hn1 hn2 e he
    rw [hlines]
    have hpres : (FetchIupac.writeBatches lookup
        ((FetchIupac.stripLines lines).take 300) fs0).batchFile n = some data :=
      FetchIupac.writeBatches_preserves lookup
        ((FetchIupac.stripLines lines).take 300) fs0 n data h
    exact FetchIupac.mergeBatches_mem
      (FetchIupac.writeBatches lookup ((FetchIupac.stripLines lines).take 300) fs0)
      (FetchIupac.numBatches ((FetchIupac.stripLines lines).take 300))
      n data hn1 hn2 hpres e he

/-- C10 witness: with batch_1.json pre-existing, its content survives the
run and appears in the merged output. -/
theorem C10_witness :
    ((FetchIupac.main lookupW (some linesW) fsW).batchFile 1 = some [entryW]) ∧
    entryW ∈ (FetchIupac.main lookupW (some linesW) fsW).allResults.getD [] := by
  have hthm := C10_no_overwrite lookupW (some linesW) fsW 1 [entryW] rfl
  exact ⟨hthm.1, hthm.2 linesW rfl (by omega) (by decide) entryW
    (List.mem_cons_self entryW [])⟩
